import Mathlib

/-!
# Verification of the r2d2 template-inference and validation engine

Shallow embedding of `src/lib/template-detector.ts` and the session wrapper
`src/stores/template-store.ts`.

JSON values are modelled as an inductive type. JavaScript objects are
association lists `List (String × JsonValue)` in insertion order; JavaScript
guarantees that an object's keys are pairwise distinct, which theorems assume
through an explicit well-formedness hypothesis where it matters. `obj[key]`
is first-match lookup (`List.lookup`), `Object.keys` is `List.map Prod.fst`,
and `key in obj` is list membership of the key. JavaScript `Set` iteration
order is first-insertion order, modelled by a first-occurrence deduplication.
JS numbers are modelled by `Int`: the engine only ever inspects the runtime
type tag of a number, never its value, so the carrier is irrelevant.
-/

set_option autoImplicit false

namespace R2d2

/-- `JsonValue` from template-detector.ts:
`string | number | boolean | null | JsonObject | JsonArray`. -/
inductive JsonValue where
  | str (s : String)
  | num (n : Int)
  | bool (b : Bool)
  | null
  | obj (o : List (String × JsonValue))
  | arr (l : List JsonValue)

/-- `JsonObject = { [key: string]: JsonValue }` as an association list. -/
abbrev JsonObject := List (String × JsonValue)

/-- `FieldSchema { type: string; required: boolean }`. -/
structure FieldSchema where
  type : String
  required : Bool
  deriving DecidableEq, Repr

/-- `Template { fields: Record<string, FieldSchema>; sampleSize: number }`.
The `Record` is an association list in insertion order. -/
structure Template where
  fields : List (String × FieldSchema)
  sampleSize : Nat
  deriving DecidableEq, Repr

/-- The `severity: "error" | "warning"` tag of a violation. -/
inductive Severity where
  | error
  | warning
  deriving DecidableEq, Repr

/-- `Violation { index; path; message; severity }`. -/
structure Violation where
  index : Nat
  path : String
  message : String
  severity : Severity
  deriving DecidableEq, Repr

/-- `ValidationResult { isValid: boolean; violations: Violation[] }`. -/
structure ValidationResult where
  isValid : Bool
  violations : List Violation
  deriving DecidableEq, Repr

/-- `isObject(val)`: non-null, `typeof === "object"`, not an array. -/
def isObject : JsonValue → Bool
  | .obj _ => true
  | _ => false

/-- `getValueType(val)`: `null`/`array`/`object`, else the `typeof` tag. -/
def getValueType : JsonValue → String
  | .null => "null"
  | .arr _ => "array"
  | .obj _ => "object"
  | .str _ => "string"
  | .num _ => "number"
  | .bool _ => "boolean"

/-- A JavaScript `Set` under construction: keep each element the first time
it is inserted, skip it when it is already present (`seen`). -/
def dedupFirstAux (seen : List String) : List String → List String
  | [] => []
  | k :: ks =>
    if seen.contains k then dedupFirstAux seen ks
    else k :: dedupFirstAux (k :: seen) ks

/-- First-occurrence deduplication: the order in which a JavaScript `Set`
enumerates the elements inserted into it. -/
def dedupFirst (l : List String) : List String :=
  dedupFirstAux [] l

/-- `data.filter(isObject)`: the object-typed elements, as bare objects. -/
def objectsOf (l : List JsonValue) : List JsonObject :=
  l.filterMap fun e =>
    match e with
    | .obj o => some o
    | _ => none

/-- `getAllKeys(objects)`: a `Set` accumulating every key of every object,
in first-insertion order. -/
def getAllKeys (objects : List JsonObject) : List String :=
  dedupFirst (objects.flatMap fun o => o.map Prod.fst)

/-- The body of the per-key loop of `detectTemplate`'s multi-object path:
collect the values present for the key (`obj[key]` filtered on
`!== undefined`), skip the key when none exist or when more than one distinct
runtime type is observed, otherwise build its `FieldSchema`.  The `Set` of
observed type tags is a singleton exactly when every collected value has the
type of the first one, and `Array.from(types)[0]` is that first type. -/
def detectFieldForKey (objects : List JsonObject) (key : String) :
    Option (String × FieldSchema) :=
  match objects.filterMap fun o => List.lookup key o with
  | [] => none
  | v :: vs =>
    if vs.all (fun w => getValueType w == getValueType v) then
      some (key, ⟨getValueType v,
        (objects.filter fun o =>
          (o.map Prod.fst).contains key).length == objects.length⟩)
    else
      none

/-- `detectTemplate(data)`.  Non-arrays give `null`; the array is filtered to
its objects; no object gives `null`; exactly one object gives the fast path
where every entry becomes a required field; otherwise each key of the union
is processed by `detectFieldForKey`, and an empty field record gives `null`. -/
def detectTemplate : JsonValue → Option Template
  | .arr l =>
    let objects := objectsOf l
    match objects with
    | [] => none
    | [o] =>
      some ⟨o.map fun p => (p.1, ⟨getValueType p.2, true⟩), 1⟩
    | _ =>
      let fields := (getAllKeys objects).filterMap (detectFieldForKey objects)
      if fields.length == 0 then none
      else some ⟨fields, objects.length⟩
  | _ => none

/-- The violation pushed for a non-object entry. -/
def notObjectViolation (i : Nat) : Violation :=
  ⟨i, "", s!"Entry {i} is not an object", .error⟩

/-- The violation pushed for a missing required field. -/
def missingFieldViolation (i : Nat) (key : String) : Violation :=
  ⟨i, key, s!"Missing required field \"{key}\"", .error⟩

/-- The violation pushed for a type mismatch. -/
def typeMismatchViolation (i : Nat) (key actual expected : String) : Violation :=
  ⟨i, key, s!"Field \"{key}\" has type {actual}, expected {expected}", .error⟩

/-- The violation pushed for a field not present in the template. -/
def unexpectedFieldViolation (i : Nat) (key : String) : Violation :=
  ⟨i, key, s!"Unexpected field \"{key}\" not in template", .warning⟩

/-- One iteration of the `for (const [key, schema] of
Object.entries(template.fields))` loop of `validateAgainstTemplate`: a missing
required field is an error (and skips the type check via `continue`); a
present field whose runtime type differs from the schema's is an error. -/
def checkField (i : Nat) (o : JsonObject) (key : String)
    (schema : FieldSchema) : List Violation :=
  match List.lookup key o with
  | none => if schema.required then [missingFieldViolation i key] else []
  | some v =>
    if getValueType v != schema.type then
      [typeMismatchViolation i key (getValueType v) schema.type]
    else
      []

/-- The field-schema loop of `validateAgainstTemplate` over all template
fields for the object entry at index `i`. -/
def fieldViolations (i : Nat) (o : JsonObject)
    (fields : List (String × FieldSchema)) : List Violation :=
  fields.flatMap fun p => checkField i o p.1 p.2

/-- The unexpected-field loop of `validateAgainstTemplate`: every key of the
entry (a `Set`, hence first-occurrence deduplicated) that is not a template
field key yields a warning. -/
def unexpectedViolations (i : Nat) (o : JsonObject)
    (fields : List (String × FieldSchema)) : List Violation :=
  ((dedupFirst (o.map Prod.fst)).filter
      (fun k => !((fields.map Prod.fst).contains k))).map
    (unexpectedFieldViolation i)

/-- The body of `validateAgainstTemplate`'s entry loop: a non-object entry
yields one error and `continue`; an object entry runs the field-schema checks
and then the unexpected-field checks. -/
def validateEntry (fields : List (String × FieldSchema)) (i : Nat) :
    JsonValue → List Violation
  | .obj o => fieldViolations i o fields ++ unexpectedViolations i o fields
  | _ => [notObjectViolation i]

/-- `for (let i = 0; i < data.length; i++)`, accumulating violations. -/
def validateEntries (fields : List (String × FieldSchema)) :
    Nat → List JsonValue → List Violation
  | _, [] => []
  | i, e :: rest => validateEntry fields i e ++ validateEntries fields (i + 1) rest

/-- `validateAgainstTemplate(data, template)`.  Non-arrays trivially pass;
`isValid` is `violations.length === 0`. -/
def validateAgainstTemplate (data : JsonValue) (t : Template) : ValidationResult :=
  match data with
  | .arr l =>
    let violations := validateEntries t.fields 0 l
    ⟨violations.length == 0, violations⟩
  | _ => ⟨true, []⟩

/-- `getViolationsByEntry(result)`'s `Map` is an association list; `Map.set`
updates an existing key in place and appends a new one at the end. -/
def mapSet (m : List (Nat × List Violation)) (k : Nat) (v : List Violation) :
    List (Nat × List Violation) :=
  if (m.map Prod.fst).contains k then
    m.map fun p => if p.1 == k then (k, v) else p
  else
    m ++ [(k, v)]

/-- `getViolationsByEntry(result)`: group the violations by entry index,
appending each violation to its index's bucket (`get(...) || []`). -/
def getViolationsByEntry (r : ValidationResult) : List (Nat × List Violation) :=
  r.violations.foldl
    (fun m v => mapSet m v.index (((List.lookup v.index m).getD []) ++ [v])) []

/-- `BlockMode = "warn" | "block"` from template-store.ts. -/
inductive BlockMode where
  | warn
  | block
  deriving DecidableEq, Repr, BEq

/-- The signals of the module-level store in template-store.ts, gathered into
one session state. -/
structure SessionState where
  currentTemplate : Option Template
  validationResult : ValidationResult
  blockMode : BlockMode
  templateDetected : Bool

/-- `canSave()` (identical in the standalone export and the `templateStore`
method): `true` when the mode is `warn`, else the last result's `isValid`. -/
def canSave (s : SessionState) : Bool :=
  if s.blockMode == .warn then true else s.validationResult.isValid

/-- `detectAndValidate(data)`: infer, then validate and store, or reset. -/
def detectAndValidate (data : JsonValue) (s : SessionState) : SessionState :=
  match detectTemplate data with
  | some t =>
    { s with
      currentTemplate := some t
      validationResult := validateAgainstTemplate data t
      templateDetected := true }
  | none =>
    { s with
      currentTemplate := none
      validationResult := ⟨true, []⟩
      templateDetected := false }

/-- `clearTemplateState()`: reset template, result and flag. -/
def clearTemplateState (s : SessionState) : SessionState :=
  { s with
    currentTemplate := none
    validationResult := ⟨true, []⟩
    templateDetected := false }

/-- `validateData(data)`: validate against the stored template, valid/empty
when none is stored. -/
def validateData (data : JsonValue) (s : SessionState) : ValidationResult :=
  match s.currentTemplate with
  | none => ⟨true, []⟩
  | some t => validateAgainstTemplate data t

/-- `errorCount()`: violations of the stored result with error severity. -/
def errorCount (s : SessionState) : Nat :=
  (s.validationResult.violations.filter fun v => v.severity == .error).length

/-- `warningCount()`: violations of the stored result with warning severity. -/
def warningCount (s : SessionState) : Nat :=
  (s.validationResult.violations.filter fun v => v.severity == .warning).length

/-- Well-formedness of an array's elements as JavaScript values: an object
element never carries the same key twice (guaranteed by the JavaScript object
representation; association lists can express the illegal states). -/
def entryKeysDistinct : JsonValue → Bool
  | .obj o => ((o.map Prod.fst).dedup == o.map Prod.fst)
  | _ => true

/-- Every element of the array is well-formed in the sense of
`entryKeysDistinct`. -/
def arrayWF (l : List JsonValue) : Bool :=
  l.all entryKeysDistinct

/-- Every key of the object element is a field key of the template. -/
def entryKeysCovered (fieldKeys : List String) : JsonValue → Bool
  | .obj o => (o.map Prod.fst).all fun k => fieldKeys.contains k
  | _ => true

/-! ## Association-list and deduplication lemmas -/

theorem contains_eq_true_iff_mem {α : Type} [BEq α] [LawfulBEq α]
    (l : List α) (a : α) : l.contains a = true ↔ a ∈ l :=
  List.elem_iff

theorem contains_eq_false_iff_not_mem {α : Type} [BEq α] [LawfulBEq α]
    (l : List α) (a : α) : l.contains a = false ↔ a ∉ l := by
  rcases hc : l.contains a with _ | _
  · constructor
    · intro _ hm
      rw [(contains_eq_true_iff_mem l a).mpr hm] at hc
      cases hc
    · intro _
      rfl
  · constructor
    · intro h
      cases h
    · intro h
      exact absurd ((contains_eq_true_iff_mem l a).mp hc) h

theorem mem_dedupFirstAux : ∀ (l seen : List String) (a : String),
    a ∈ dedupFirstAux seen l ↔ a ∈ l ∧ a ∉ seen := by
  intro l
  induction l with
  | nil =>
    intro seen a
    simp [dedupFirstAux]
  | cons k ks ih =>
    intro seen a
    by_cases hks : k ∈ seen
    · rw [show dedupFirstAux seen (k :: ks) = dedupFirstAux seen ks by
        simp [dedupFirstAux, hks]]
      rw [ih seen a, List.mem_cons]
      by_cases hak : a = k
      · subst hak
        simp [hks]
      · simp [hak]
    · rw [show dedupFirstAux seen (k :: ks) =
          k :: dedupFirstAux (k :: seen) ks by simp [dedupFirstAux, hks]]
      rw [List.mem_cons, ih (k :: seen) a, List.mem_cons, List.mem_cons]
      by_cases hak : a = k
      · subst hak
        simp [hks]
      · simp [hak]

theorem nodup_dedupFirstAux : ∀ (l seen : List String),
    (dedupFirstAux seen l).Nodup := by
  intro l
  induction l with
  | nil =>
    intro seen
    simp [dedupFirstAux]
  | cons k ks ih =>
    intro seen
    by_cases hks : k ∈ seen
    · rw [show dedupFirstAux seen (k :: ks) = dedupFirstAux seen ks by
        simp [dedupFirstAux, hks]]
      exact ih seen
    · rw [show dedupFirstAux seen (k :: ks) =
          k :: dedupFirstAux (k :: seen) ks by simp [dedupFirstAux, hks]]
      rw [List.nodup_cons]
      refine ⟨?_, ih (k :: seen)⟩
      intro hmem
      exact ((mem_dedupFirstAux ks (k :: seen) k).mp hmem).2
        (List.mem_cons_self k seen)

theorem mem_dedupFirst (l : List String) (a : String) :
    a ∈ dedupFirst l ↔ a ∈ l := by
  simp [dedupFirst, mem_dedupFirstAux]

theorem nodup_dedupFirst (l : List String) : (dedupFirst l).Nodup :=
  nodup_dedupFirstAux l []

theorem lookup_eq_none_iff_keys {α β : Type} [BEq α] [LawfulBEq α]
    (k : α) (l : List (α × β)) :
    List.lookup k l = none ↔ k ∉ l.map Prod.fst := by
  induction l with
  | nil => simp
  | cons p rest ih =>
    rcases hbeq : k == p.1 with _ | _
    · have hne : k ≠ p.1 := fun he => by simp [he] at hbeq
      simp [List.lookup, hbeq, ih, hne]
    · have he : k = p.1 := eq_of_beq hbeq
      simp [List.lookup, hbeq, he]

theorem lookup_isSome_of_mem_keys {α β : Type} [BEq α] [LawfulBEq α]
    (k : α) (l : List (α × β)) (h : k ∈ l.map Prod.fst) :
    ∃ v, List.lookup k l = some v := by
  cases hl : List.lookup k l with
  | none => exact absurd ((lookup_eq_none_iff_keys k l).mp hl) (not_not.mpr h)
  | some v => exact ⟨v, rfl⟩

theorem mem_keys_of_lookup_eq_some {α β : Type} [BEq α] [LawfulBEq α]
    (k : α) (l : List (α × β)) (v : β) (h : List.lookup k l = some v) :
    k ∈ l.map Prod.fst := by
  by_contra hmem
  rw [← lookup_eq_none_iff_keys k l] at hmem
  rw [h] at hmem
  cases hmem

theorem lookup_eq_some_of_nodup {α β : Type} [BEq α] [LawfulBEq α]
    (l : List (α × β)) (k : α) (v : β) (hnd : (l.map Prod.fst).Nodup)
    (hmem : (k, v) ∈ l) : List.lookup k l = some v := by
  induction l with
  | nil => cases hmem
  | cons p rest ih =>
    simp only [List.map_cons, List.nodup_cons] at hnd
    rcases List.mem_cons.mp hmem with h | h
    · subst h
      simp [List.lookup]
    · have hk : k ∈ rest.map Prod.fst :=
        List.mem_map.mpr ⟨(k, v), h, rfl⟩
      have hne : (k == p.1) = false := by
        rcases hbeq : k == p.1 with _ | _
        · rfl
        · exact absurd (eq_of_beq hbeq ▸ hk) hnd.1
      simpa [List.lookup, hne] using ih hnd.2 h

theorem mem_objectsOf (l : List JsonValue) (o : JsonObject)
    (h : JsonValue.obj o ∈ l) : o ∈ objectsOf l :=
  List.mem_filterMap.mpr ⟨.obj o, h, rfl⟩

theorem eq_map_objectsOf_of_all_isObject (l : List JsonValue)
    (h : l.all isObject = true) : l = (objectsOf l).map JsonValue.obj := by
  induction l with
  | nil => rfl
  | cons e rest ih =>
    simp only [List.all_cons, Bool.and_eq_true] at h
    cases e with
    | obj o =>
      simp only [objectsOf, List.filterMap_cons] at *
      simpa using ih h.2
    | str s => simp [isObject] at h
    | num n => simp [isObject] at h
    | bool b => simp [isObject] at h
    | null => simp [isObject] at h
    | arr a => simp [isObject] at h

/-! ## Shape of the violations an entry produces -/

theorem index_path_of_mem_checkField (i : Nat) (o : JsonObject) (key : String)
    (schema : FieldSchema) (v : Violation) (h : v ∈ checkField i o key schema) :
    v.index = i ∧ v.path = key := by
  unfold checkField at h
  split at h
  · split at h
    · rcases List.mem_singleton.mp h with rfl
      exact ⟨rfl, rfl⟩
    · cases h
  · split at h
    · rcases List.mem_singleton.mp h with rfl
      exact ⟨rfl, rfl⟩
    · cases h

theorem path_of_mem_fieldViolations (i : Nat) (o : JsonObject)
    (fields : List (String × FieldSchema)) (v : Violation)
    (h : v ∈ fieldViolations i o fields) :
    v.index = i ∧ v.path ∈ fields.map Prod.fst := by
  obtain ⟨p, hp, hv⟩ := List.mem_flatMap.mp h
  obtain ⟨hi, hpath⟩ := index_path_of_mem_checkField i o p.1 p.2 v hv
  exact ⟨hi, hpath ▸ List.mem_map.mpr ⟨p, hp, rfl⟩⟩

theorem mem_unexpectedViolations (i : Nat) (o : JsonObject)
    (fields : List (String × FieldSchema)) (v : Violation) :
    v ∈ unexpectedViolations i o fields ↔
      ∃ k, k ∈ dedupFirst (o.map Prod.fst) ∧
        ((fields.map Prod.fst).contains k) = false ∧
        v = unexpectedFieldViolation i k := by
  simp only [unexpectedViolations, List.mem_map, List.mem_filter,
    Bool.not_eq_eq_eq_not, Bool.not_true]
  constructor
  · intro hex
    obtain ⟨k, ⟨hk1, hk2⟩, hk3⟩ := hex
    exact ⟨k, hk1, hk2, hk3.symm⟩
  · intro hex
    obtain ⟨k, hk1, hk2, hk3⟩ := hex
    exact ⟨k, ⟨hk1, hk2⟩, hk3.symm⟩

theorem index_of_mem_validateEntry (fields : List (String × FieldSchema))
    (i : Nat) (e : JsonValue) (v : Violation) (h : v ∈ validateEntry fields i e) :
    v.index = i := by
  cases e with
  | obj o =>
    rcases List.mem_append.mp h with h1 | h1
    · exact (path_of_mem_fieldViolations i o fields v h1).1
    · obtain ⟨k, _, _, hv⟩ := (mem_unexpectedViolations i o fields v).mp h1
      subst hv
      rfl
  | str s =>
    rcases List.mem_singleton.mp h with rfl
    rfl
  | num n =>
    rcases List.mem_singleton.mp h with rfl
    rfl
  | bool b =>
    rcases List.mem_singleton.mp h with rfl
    rfl
  | null =>
    rcases List.mem_singleton.mp h with rfl
    rfl
  | arr a =>
    rcases List.mem_singleton.mp h with rfl
    rfl

theorem le_index_of_mem_validateEntries (fields : List (String × FieldSchema)) :
    ∀ (l : List JsonValue) (n : Nat) (v : Violation),
      v ∈ validateEntries fields n l → n ≤ v.index := by
  intro l
  induction l with
  | nil =>
    intro n v h
    cases h
  | cons e rest ih =>
    intro n v h
    rcases List.mem_append.mp h with h1 | h1
    · exact Nat.le_of_eq (index_of_mem_validateEntry fields n e v h1).symm
    · exact Nat.le_of_succ_le (ih (n + 1) v h1)

theorem validateEntries_filter_index (fields : List (String × FieldSchema)) :
    ∀ (l : List JsonValue) (n i : Nat), n ≤ i → ∀ h2 : i - n < l.length,
      (validateEntries fields n l).filter (fun v => v.index == i) =
        validateEntry fields i (l.get ⟨i - n, h2⟩) := by
  intro l
  induction l with
  | nil =>
    intro n i h1 h2
    simp at h2
  | cons e rest ih =>
    intro n i h1 h2
    simp only [validateEntries, List.filter_append]
    by_cases hni : i = n
    · subst hni
      have hfirst :
          (validateEntry fields i e).filter (fun v => v.index == i) =
            validateEntry fields i e :=
        List.filter_eq_self.mpr fun v hv => by
          simp [index_of_mem_validateEntry fields i e v hv]
      have hrest :
          (validateEntries fields (i + 1) rest).filter
              (fun v => v.index == i) = [] :=
        List.filter_eq_nil_iff.mpr fun v hv => by
          have := le_index_of_mem_validateEntries fields rest (i + 1) v hv
          simp only [beq_iff_eq]
          omega
      rw [hfirst, hrest, List.append_nil]
      have hfin : (⟨i - i, h2⟩ : Fin (e :: rest).length) =
          ⟨0, Nat.succ_pos rest.length⟩ := Fin.ext (Nat.sub_self i)
      rw [hfin]
      rfl
    · have hlt : n < i := Nat.lt_of_le_of_ne h1 fun he => hni he.symm
      have hfirst :
          (validateEntry fields n e).filter (fun v => v.index == i) = [] :=
        List.filter_eq_nil_iff.mpr fun v hv => by
          have := index_of_mem_validateEntry fields n e v hv
          simp only [beq_iff_eq]
          omega
      have h2' : i - (n + 1) < rest.length := by
        simp only [List.length_cons] at h2
        omega
      rw [hfirst, List.nil_append, ih (n + 1) i hlt h2']
      have hk : i - n = (i - (n + 1)) + 1 := by omega
      have hfin : (⟨i - n, h2⟩ : Fin (e :: rest).length) =
          ⟨(i - (n + 1)) + 1, by
            simp only [List.length_cons]
            omega⟩ := Fin.ext hk
      rw [hfin]
      rfl

theorem violations_filter_index (l : List JsonValue) (t : Template) (i : Nat)
    (hi : i < l.length) :
    (validateAgainstTemplate (.arr l) t).violations.filter
        (fun v => v.index == i) =
      validateEntry t.fields i (l.get ⟨i, hi⟩) := by
  have h2 : i - 0 < l.length := by omega
  have := validateEntries_filter_index t.fields l 0 i (Nat.zero_le i) h2
  simpa [validateAgainstTemplate] using this

/-! ## Claim theorems -/

/-- C2. `validateAgainstTemplate` reports `isValid` exactly when its
violation list is empty, whatever the data and template are; a result whose
violations are all warnings is still not valid. -/
theorem isValid_iff_violations_nil (data : JsonValue) (t : Template) :
    (validateAgainstTemplate data t).isValid = true ↔
      (validateAgainstTemplate data t).violations = [] := by
  cases data with
  | arr l =>
    simp [validateAgainstTemplate, Nat.beq_eq, List.length_eq_zero]
  | str s => simp [validateAgainstTemplate]
  | num n => simp [validateAgainstTemplate]
  | bool b => simp [validateAgainstTemplate]
  | null => simp [validateAgainstTemplate]
  | obj o => simp [validateAgainstTemplate]

/-- C9. Validation never reads the template's `sampleSize`: two templates
with the same fields and arbitrary sample sizes validate any data
identically. -/
theorem validate_ignores_sampleSize (data : JsonValue)
    (fields : List (String × FieldSchema)) (n1 n2 : Nat) :
    validateAgainstTemplate data ⟨fields, n1⟩ =
      validateAgainstTemplate data ⟨fields, n2⟩ := rfl

/-- C8. `canSave` is `true` whenever the block mode is `warn`, and equals the
stored result's `isValid` whenever the block mode is `block`. -/
theorem canSave_spec (s : SessionState) :
    (s.blockMode = .warn → canSave s = true) ∧
    (s.blockMode = .block → canSave s = s.validationResult.isValid) := by
  constructor
  · intro h
    unfold canSave
    rw [h]
    rfl
  · intro h
    unfold canSave
    rw [h]
    rfl

/-- Witness for C8 at a concrete warn-mode state with an invalid result and
the same state in block mode. -/
theorem canSave_spec_witness :
    canSave ⟨none, ⟨false, []⟩, .warn, false⟩ = true ∧
      canSave ⟨none, ⟨false, []⟩, .block, false⟩ =
        (⟨false, []⟩ : ValidationResult).isValid :=
  ⟨(canSave_spec ⟨none, ⟨false, []⟩, .warn, false⟩).1 rfl,
    (canSave_spec ⟨none, ⟨false, []⟩, .block, false⟩).2 rfl⟩

/-- C5. A non-object entry at index `i` produces exactly one violation for
that index: the error with empty path and message `Entry i is not an
object`; no field-level or unexpected-field check runs for that entry. -/
theorem validate_nonobject_entry (l : List JsonValue) (t : Template) (i : Nat)
    (hi : i < l.length) (hno : isObject (l.get ⟨i, hi⟩) = false) :
    (validateAgainstTemplate (.arr l) t).violations.filter
        (fun v => v.index == i) =
      [⟨i, "", s!"Entry {i} is not an object", .error⟩] := by
  rw [violations_filter_index l t i hi]
  cases he : l.get ⟨i, hi⟩ with
  | obj o =>
    rw [he] at hno
    simp [isObject] at hno
  | str s => simp [validateEntry, notObjectViolation]
  | num n => simp [validateEntry, notObjectViolation]
  | bool b => simp [validateEntry, notObjectViolation]
  | null => simp [validateEntry, notObjectViolation]
  | arr a => simp [validateEntry, notObjectViolation]

theorem filter_index_path (vs : List Violation) (i : Nat) (p : String) :
    vs.filter (fun v => v.index == i && v.path == p) =
      (vs.filter (fun v => v.index == i)).filter (fun v => v.path == p) := by
  rw [List.filter_filter]
  apply List.filter_congr
  intro v _
  exact Bool.and_comm _ _

theorem filter_path_checkField_self (i : Nat) (o : JsonObject) (f : String)
    (s : FieldSchema) :
    (checkField i o f s).filter (fun v => v.path == f) = checkField i o f s :=
  List.filter_eq_self.mpr fun v hv => by
    simp [(index_path_of_mem_checkField i o f s v hv).2]

theorem filter_path_checkField_ne (i : Nat) (o : JsonObject) (k : String)
    (s : FieldSchema) (f : String) (h : k ≠ f) :
    (checkField i o k s).filter (fun v => v.path == f) = [] :=
  List.filter_eq_nil_iff.mpr fun v hv => by
    simp [(index_path_of_mem_checkField i o k s v hv).2, h]

theorem filter_path_fieldViolations (i : Nat) (o : JsonObject) (f : String)
    (s : FieldSchema) :
    ∀ fields : List (String × FieldSchema),
      (fields.map Prod.fst).Nodup → (f, s) ∈ fields →
      (fieldViolations i o fields).filter (fun v => v.path == f) =
        checkField i o f s := by
  intro fields
  induction fields with
  | nil =>
    intro _ hmem
    cases hmem
  | cons p rest ih =>
    intro hnd hmem
    obtain ⟨k, s'⟩ := p
    simp only [List.map_cons, List.nodup_cons] at hnd
    have hsplit : fieldViolations i o ((k, s') :: rest) =
        checkField i o k s' ++ fieldViolations i o rest := rfl
    rw [hsplit, List.filter_append]
    by_cases hkf : k = f
    · subst hkf
      have hs : s' = s := by
        rcases List.mem_cons.mp hmem with he | he
        · exact (Prod.mk.injEq k s k s' ▸ he).2.symm
        · exact absurd (List.mem_map.mpr ⟨(k, s), he, rfl⟩) hnd.1
      subst hs
      have hrest : (fieldViolations i o rest).filter
          (fun v => v.path == k) = [] :=
        List.filter_eq_nil_iff.mpr fun v hv => by
          have hp := (path_of_mem_fieldViolations i o rest v hv).2
          have : v.path ≠ k := fun he => hnd.1 (he ▸ hp)
          simp [this]
      rw [filter_path_checkField_self, hrest, List.append_nil]
    · have hmem' : (f, s) ∈ rest := by
        rcases List.mem_cons.mp hmem with he | he
        · exact absurd (congrArg Prod.fst he).symm hkf
        · exact he
      rw [filter_path_checkField_ne i o k s' f hkf, List.nil_append]
      exact ih hnd.2 hmem'

theorem filter_path_unexpected_of_mem_keys (i : Nat) (o : JsonObject)
    (fields : List (String × FieldSchema)) (f : String)
    (hf : f ∈ fields.map Prod.fst) :
    (unexpectedViolations i o fields).filter (fun v => v.path == f) = [] :=
  List.filter_eq_nil_iff.mpr fun v hv => by
    obtain ⟨k, _, hk2, hveq⟩ := (mem_unexpectedViolations i o fields v).mp hv
    subst hveq
    have hne : k ≠ f := fun he => by
      rw [he] at hk2
      rw [(contains_eq_true_iff_mem (fields.map Prod.fst) f).mpr hf] at hk2
      cases hk2
    simp [unexpectedFieldViolation, hne]

theorem filter_path_unexpected_of_not_key (i : Nat) (o : JsonObject)
    (fields : List (String × FieldSchema)) (f : String)
    (hf : f ∉ o.map Prod.fst) :
    (unexpectedViolations i o fields).filter (fun v => v.path == f) = [] :=
  List.filter_eq_nil_iff.mpr fun v hv => by
    obtain ⟨k, hk1, _, hveq⟩ := (mem_unexpectedViolations i o fields v).mp hv
    subst hveq
    have hne : k ≠ f := fun he =>
      hf (he ▸ (mem_dedupFirst (o.map Prod.fst) k).mp hk1)
    simp [unexpectedFieldViolation, hne]

/-- The violations of the array at index `i` (an object entry), restricted to
path `f`, are exactly what `checkField` produces for the template field
`(f, s)`. -/
theorem violations_filter_index_path (l : List JsonValue) (t : Template)
    (i : Nat) (o : JsonObject) (f : String) (s : FieldSchema)
    (hi : i < l.length) (hentry : l.get ⟨i, hi⟩ = .obj o)
    (hnd : (t.fields.map Prod.fst).Nodup) (hmem : (f, s) ∈ t.fields) :
    (validateAgainstTemplate (.arr l) t).violations.filter
        (fun v => v.index == i && v.path == f) =
      checkField i o f s := by
  rw [filter_index_path, violations_filter_index l t i hi, hentry]
  have hsplit : validateEntry t.fields i (.obj o) =
      fieldViolations i o t.fields ++ unexpectedViolations i o t.fields := rfl
  rw [hsplit, List.filter_append,
    filter_path_fieldViolations i o f s t.fields hnd hmem,
    filter_path_unexpected_of_mem_keys i o t.fields f
      (List.mem_map.mpr ⟨(f, s), hmem, rfl⟩),
    List.append_nil]

/-- C6. For an object entry and a template field `(f, s)`: a required absent
field yields exactly the missing-field error at this index and path (so no
type check fires for it); a present field of the wrong runtime type yields
exactly the type-mismatch error naming actual and expected types; an absent
optional field yields nothing at this index and path. -/
theorem validate_field_checks (l : List JsonValue) (t : Template) (i : Nat)
    (o : JsonObject) (f : String) (s : FieldSchema)
    (hi : i < l.length) (hentry : l.get ⟨i, hi⟩ = .obj o)
    (hnd : (t.fields.map Prod.fst).Nodup) (hmem : (f, s) ∈ t.fields) :
    (List.lookup f o = none → s.required = true →
      (validateAgainstTemplate (.arr l) t).violations.filter
          (fun v => v.index == i && v.path == f) =
        [⟨i, f, s!"Missing required field \"{f}\"", .error⟩]) ∧
    (∀ v, List.lookup f o = some v → getValueType v ≠ s.type →
      (validateAgainstTemplate (.arr l) t).violations.filter
          (fun v => v.index == i && v.path == f) =
        [⟨i, f, s!"Field \"{f}\" has type {getValueType v}, expected {s.type}",
          .error⟩]) ∧
    (List.lookup f o = none → s.required = false →
      (validateAgainstTemplate (.arr l) t).violations.filter
          (fun v => v.index == i && v.path == f) = []) := by
  have hbase := violations_filter_index_path l t i o f s hi hentry hnd hmem
  refine ⟨?_, ?_, ?_⟩
  · intro hl hr
    rw [hbase]
    simp [checkField, hl, hr, missingFieldViolation]
  · intro v hl hty
    rw [hbase]
    simp [checkField, hl, bne_iff_ne, hty, typeMismatchViolation]
  · intro hl hr
    rw [hbase]
    simp [checkField, hl, hr]

/-- Witness for C6 (missing-required case): template requiring a number `a`,
data `[{}]`. -/
theorem validate_field_checks_witness :
    (validateAgainstTemplate (.arr [.obj []])
        ⟨[("a", ⟨"number", true⟩)], 1⟩).violations.filter
        (fun v => v.index == 0 && v.path == "a") =
      [⟨0, "a", "Missing required field \"a\"", .error⟩] :=
  (validate_field_checks [.obj []] ⟨[("a", ⟨"number", true⟩)], 1⟩ 0 []
    "a" ⟨"number", true⟩ (by decide) rfl (by decide) (by decide)).1 rfl rfl

/-- C7. An object entry's key `k` that is not a template field yields exactly
one violation at this index and path: the unexpected-field warning (never an
error). -/
theorem validate_unexpected_field (l : List JsonValue) (t : Template)
    (i : Nat) (o : JsonObject) (k : String)
    (hi : i < l.length) (hentry : l.get ⟨i, hi⟩ = .obj o)
    (hk : k ∈ o.map Prod.fst) (hnot : k ∉ t.fields.map Prod.fst) :
    (validateAgainstTemplate (.arr l) t).violations.filter
        (fun v => v.index == i && v.path == k) =
      [⟨i, k, s!"Unexpected field \"{k}\" not in template", .warning⟩] := by
  have hcont : (t.fields.map Prod.fst).contains k = false := by
    rcases hc : (t.fields.map Prod.fst).contains k with _ | _
    · rfl
    · exact absurd ((contains_eq_true_iff_mem _ k).mp hc) hnot
  rw [filter_index_path, violations_filter_index l t i hi, hentry]
  have hsplit : validateEntry t.fields i (.obj o) =
      fieldViolations i o t.fields ++ unexpectedViolations i o t.fields := rfl
  rw [hsplit, List.filter_append]
  have hfield : (fieldViolations i o t.fields).filter
      (fun v => v.path == k) = [] :=
    List.filter_eq_nil_iff.mpr fun v hv => by
      have hp := (path_of_mem_fieldViolations i o t.fields v hv).2
      have : v.path ≠ k := fun he => hnot (he ▸ hp)
      simp [this]
  rw [hfield, List.nil_append]
  have hcomp : ((fun v : Violation => v.path == k) ∘
      unexpectedFieldViolation i) = fun x => x == k := rfl
  rw [unexpectedViolations, List.filter_map, hcomp]
  have hinner : ((dedupFirst (o.map Prod.fst)).filter
        (fun x => !((t.fields.map Prod.fst).contains x))).filter
        (fun x => x == k) =
      (dedupFirst (o.map Prod.fst)).filter (fun x => x == k) := by
    rw [List.filter_filter]
    apply List.filter_congr
    intro x _
    by_cases hxk : x = k
    · subst hxk
      rw [hcont]
      simp
    · simp [hxk]
  rw [hinner]
  have hdec : (dedupFirst (o.map Prod.fst)).filter (fun x => x == k) =
      (dedupFirst (o.map Prod.fst)).filter (fun x => decide (x = k)) :=
    List.filter_congr fun x _ => by
      by_cases hxk : x = k
      · simp [hxk]
      · simp [hxk]
  rw [hdec, List.filter_eq,
    List.count_eq_one_of_mem (nodup_dedupFirst (o.map Prod.fst))
      ((mem_dedupFirst (o.map Prod.fst) k).mpr hk)]
  rfl

/-- Witness for C7: template with only field `a`, data `[{a:1, b:2}]`: key
`b` yields exactly the unexpected-field warning. -/
theorem validate_unexpected_field_witness :
    (validateAgainstTemplate (.arr [.obj [("a", .num 1), ("b", .num 2)]])
        ⟨[("a", ⟨"number", true⟩)], 1⟩).violations.filter
        (fun v => v.index == 0 && v.path == "b") =
      [⟨0, "b", "Unexpected field \"b\" not in template", .warning⟩] :=
  validate_unexpected_field [.obj [("a", .num 1), ("b", .num 2)]]
    ⟨[("a", ⟨"number", true⟩)], 1⟩ 0 [("a", .num 1), ("b", .num 2)] "b"
    (by decide) rfl (by decide) (by decide)

/-- Witness for C5: on `[1, {a:1}]` with a template requiring `a`, entry 0
yields exactly the not-an-object error. -/
theorem validate_nonobject_entry_witness :
    (validateAgainstTemplate (.arr [.num 1, .obj [("a", .num 1)]])
        ⟨[("a", ⟨"number", true⟩)], 1⟩).violations.filter
        (fun v => v.index == 0) =
      [⟨0, "", "Entry 0 is not an object", .error⟩] :=
  validate_nonobject_entry [.num 1, .obj [("a", .num 1)]]
    ⟨[("a", ⟨"number", true⟩)], 1⟩ 0 (by decide) (by decide)

/-! ## Structure of the inferred template -/

theorem detectFieldForKey_eq_some (objects : List JsonObject)
    (k k' : String) (s : FieldSchema)
    (h : detectFieldForKey objects k = some (k', s)) :
    k' = k ∧ ∃ v vs,
      objects.filterMap (fun o => List.lookup k o) = v :: vs ∧
      (vs.all fun w => getValueType w == getValueType v) = true ∧
      s = ⟨getValueType v,
        ((objects.filter fun o =>
          (o.map Prod.fst).contains k).length == objects.length)⟩ := by
  unfold detectFieldForKey at h
  split at h
  · cases h
  · rename_i v vs hvals
    split at h
    · rename_i hall
      obtain ⟨hk, hs⟩ := Prod.mk.injEq _ _ _ _ ▸ Option.some.injEq _ _ ▸ h
      exact ⟨hk.symm ▸ rfl, v, vs, hvals, hall, hs.symm⟩
    · cases h

/-- C4. A field of an inferred template is required exactly when its key is
present in every object-typed element of the array, in both the
single-object and multi-object inference paths. -/
theorem detect_required_iff (l : List JsonValue) (t : Template) (f : String)
    (s : FieldSchema) (hdet : detectTemplate (.arr l) = some t)
    (hmem : (f, s) ∈ t.fields) :
    s.required = true ↔ ∀ o ∈ objectsOf l, f ∈ o.map Prod.fst := by
  cases hobjs : objectsOf l with
  | nil =>
    simp [detectTemplate, hobjs] at hdet
  | cons o1 rest1 =>
    cases rest1 with
    | nil =>
      simp only [detectTemplate, hobjs, Option.some.injEq] at hdet
      subst hdet
      obtain ⟨p, hp, hpe⟩ := List.mem_map.mp hmem
      obtain ⟨hp1, hp2⟩ := Prod.mk.injEq _ _ _ _ ▸ hpe
      constructor
      · intro _ o ho
        rcases List.mem_cons.mp ho with rfl | hbad
        · exact hp1 ▸ List.mem_map.mpr ⟨p, hp, rfl⟩
        · cases hbad
      · intro _
        exact hp2 ▸ rfl
    | cons o2 rest2 =>
      simp only [detectTemplate, hobjs] at hdet
      split at hdet
      · cases hdet
      · rw [Option.some.injEq] at hdet
        subst hdet
        simp only at hmem
        obtain ⟨k0, _, hk0⟩ := List.mem_filterMap.mp hmem
        obtain ⟨hfk, v, vs, _, _, hs⟩ :=
          detectFieldForKey_eq_some (o1 :: o2 :: rest2) k0 f s hk0
        subst hfk
        subst hs
        simp only [beq_iff_eq, ← List.countP_eq_length_filter,
          List.countP_eq_length]
        constructor
        · intro hall o ho
          have := hall o ho
          exact (contains_eq_true_iff_mem _ f).mp this
        · intro hall o ho
          exact (contains_eq_true_iff_mem _ f).mpr (hall o ho)

theorem detectFieldForKey_eq_none_of_conflict (objects : List JsonObject)
    (k : String)
    (hconf : ∃ v ∈ objects.filterMap (fun o => List.lookup k o),
      ∃ w ∈ objects.filterMap (fun o => List.lookup k o),
        getValueType v ≠ getValueType w) :
    detectFieldForKey objects k = none := by
  unfold detectFieldForKey
  split
  · rfl
  · rename_i v vs hvals
    split
    · rename_i hall
      exfalso
      rw [hvals] at hconf
      obtain ⟨x, hx, y, hy, hne⟩ := hconf
      have htype : ∀ z ∈ v :: vs, getValueType z = getValueType v := by
        intro z hz
        rcases List.mem_cons.mp hz with rfl | hz'
        · rfl
        · exact beq_iff_eq.mp ((List.all_eq_true.mp hall) z hz')
      exact hne ((htype x hx).trans (htype y hy).symm)
    · rfl

/-- C3. In the multi-object inference path: a key on which the sampled
objects exhibit more than one distinct runtime type tag never appears among
the inferred template's fields, and when every candidate key of the union is
conflicted this way no template is inferred at all. -/
theorem detect_drops_conflicting_fields (l : List JsonValue)
    (hmulti : 2 ≤ (objectsOf l).length) :
    (∀ (k : String) (t : Template), detectTemplate (.arr l) = some t →
      (∃ v ∈ (objectsOf l).filterMap (fun o => List.lookup k o),
        ∃ w ∈ (objectsOf l).filterMap (fun o => List.lookup k o),
          getValueType v ≠ getValueType w) →
      k ∉ t.fields.map Prod.fst) ∧
    ((∀ k ∈ getAllKeys (objectsOf l),
        ∃ v ∈ (objectsOf l).filterMap (fun o => List.lookup k o),
          ∃ w ∈ (objectsOf l).filterMap (fun o => List.lookup k o),
            getValueType v ≠ getValueType w) →
      detectTemplate (.arr l) = none) := by
  obtain ⟨o1, o2, rest, hobjs⟩ :
      ∃ o1 o2 rest, objectsOf l = o1 :: o2 :: rest := by
    cases hob : objectsOf l with
    | nil =>
      rw [hob] at hmulti
      simp at hmulti
    | cons a t1 =>
      cases t1 with
      | nil =>
        rw [hob] at hmulti
        simp at hmulti
      | cons b t2 => exact ⟨a, b, t2, rfl⟩
  constructor
  · intro k t hdet hconf hkmem
    simp only [detectTemplate, hobjs] at hdet
    split at hdet
    · cases hdet
    · rw [Option.some.injEq] at hdet
      subst hdet
      simp only at hkmem
      obtain ⟨p, hp, hpk⟩ := List.mem_map.mp hkmem
      obtain ⟨k0, _, hk0⟩ := List.mem_filterMap.mp hp
      have hchar := detectFieldForKey_eq_some (o1 :: o2 :: rest) k0 p.1 p.2
        (by simpa using hk0)
      have hkk0 : k0 = k := hpk ▸ hchar.1.symm
      subst hkk0
      rw [hobjs] at hconf
      rw [detectFieldForKey_eq_none_of_conflict (o1 :: o2 :: rest) k0 hconf]
        at hk0
      cases hk0
  · intro hconfall
    simp only [detectTemplate, hobjs]
    have hnil : (getAllKeys (o1 :: o2 :: rest)).filterMap
        (detectFieldForKey (o1 :: o2 :: rest)) = [] := by
      rw [List.filterMap_eq_nil_iff]
      intro k hk
      have := hconfall k (hobjs ▸ hk)
      rw [hobjs] at this
      exact detectFieldForKey_eq_none_of_conflict (o1 :: o2 :: rest) k this
    rw [hnil]
    rfl

/-- Witness for C3 on `[{a:1},{a:"x"}]`: two objects, the only key `a` is
conflicted, so inference yields no template. -/
theorem detect_drops_conflicting_fields_witness :
    2 ≤ (objectsOf [.obj [("a", .num 1)], .obj [("a", .str "x")]]).length ∧
      detectTemplate (.arr [.obj [("a", .num 1)], .obj [("a", .str "x")]]) =
        none :=
  ⟨by decide,
    (detect_drops_conflicting_fields
        [.obj [("a", .num 1)], .obj [("a", .str "x")]] (by decide)).2
      (by decide)⟩

/-- Witness for C4 on `[{a:1,b:2},{a:3}]`: field `a` is required since `a`
occurs in both objects. -/
theorem detect_required_iff_witness :
    (⟨"number", true⟩ : FieldSchema).required = true :=
  (detect_required_iff
      [.obj [("a", .num 1), ("b", .num 2)], .obj [("a", .num 3)]]
      ⟨[("a", ⟨"number", true⟩), ("b", ⟨"number", false⟩)], 2⟩
      "a" ⟨"number", true⟩ (by decide) (by decide)).mpr
    (by decide)

/-! ## The validation round-trip -/

theorem obj_mem_of_mem_objectsOf (l : List JsonValue) (o : JsonObject)
    (h : o ∈ objectsOf l) : JsonValue.obj o ∈ l := by
  obtain ⟨e, hel, hem⟩ := List.mem_filterMap.mp h
  cases e with
  | obj o' =>
    rw [Option.some.injEq] at hem
    exact hem ▸ hel
  | str s => cases hem
  | num n => cases hem
  | bool b => cases hem
  | null => cases hem
  | arr a => cases hem

theorem validateEntries_eq_nil_of (fields : List (String × FieldSchema)) :
    ∀ l : List JsonValue,
      (∀ e ∈ l, ∀ i, validateEntry fields i e = []) →
      ∀ n, validateEntries fields n l = [] := by
  intro l
  induction l with
  | nil =>
    intro _ n
    rfl
  | cons e rest ih =>
    intro h n
    show validateEntry fields n e ++ validateEntries fields (n + 1) rest = []
    rw [h e (List.mem_cons_self e rest) n, List.nil_append]
    exact ih (fun e' he' i => h e' (List.mem_cons_of_mem e he') i) (n + 1)

theorem unexpectedViolations_eq_nil (i : Nat) (o : JsonObject)
    (fields : List (String × FieldSchema))
    (hcov : ∀ k ∈ o.map Prod.fst, k ∈ fields.map Prod.fst) :
    unexpectedViolations i o fields = [] := by
  unfold unexpectedViolations
  rw [List.filter_eq_nil_iff.mpr, List.map_nil]
  intro k hk
  have hmem : k ∈ fields.map Prod.fst :=
    hcov k ((mem_dedupFirst (o.map Prod.fst) k).mp hk)
  rw [(contains_eq_true_iff_mem (fields.map Prod.fst) k).mpr hmem]
  simp

/-- Every field of a template inferred from `l` validates clean against
every object element of `l` (the array is well-formed in the JavaScript
sense): that field check produces no violation. -/
theorem checkField_nil_of_detect (l : List JsonValue) (t : Template)
    (hwf : arrayWF l = true) (hdet : detectTemplate (.arr l) = some t) :
    ∀ p ∈ t.fields, ∀ o ∈ objectsOf l, ∀ i,
      checkField i o p.1 p.2 = [] := by
  intro p hp o ho i
  cases hobjs : objectsOf l with
  | nil => simp [detectTemplate, hobjs] at hdet
  | cons o1 rest1 =>
    cases rest1 with
    | nil =>
      simp only [detectTemplate, hobjs, Option.some.injEq] at hdet
      subst hdet
      rw [hobjs] at ho
      have ho1 : o = o1 := by
        rcases List.mem_cons.mp ho with he | he
        · exact he
        · cases he
      subst ho1
      obtain ⟨q, hq, hqe⟩ := List.mem_map.mp hp
      have hnd : (o.map Prod.fst).Nodup := by
        have hdist := (List.all_eq_true.mp hwf) (.obj o)
          (obj_mem_of_mem_objectsOf l o (hobjs ▸ List.mem_cons_self o []))
        simp only [entryKeysDistinct] at hdist
        exact List.dedup_eq_self.mp (beq_iff_eq.mp hdist)
      have hlook : List.lookup q.1 o = some q.2 :=
        lookup_eq_some_of_nodup o q.1 q.2 hnd (by simpa using hq)
      rw [← hqe]
      simp [checkField, hlook]
    | cons o2 rest2 =>
      simp only [detectTemplate, hobjs] at hdet
      split at hdet
      · cases hdet
      · rw [Option.some.injEq] at hdet
        subst hdet
        simp only at hp
        obtain ⟨k0, _, hk0⟩ := List.mem_filterMap.mp hp
        obtain ⟨hfk, v, vs, hvals, hall, hs⟩ :=
          detectFieldForKey_eq_some (o1 :: o2 :: rest2) k0 p.1 p.2 hk0
        rw [hobjs] at ho
        cases hl : List.lookup p.1 o with
        | none =>
          have hnotmem : p.1 ∉ o.map Prod.fst :=
            (lookup_eq_none_iff_keys p.1 o).mp hl
          have hlt : ((o1 :: o2 :: rest2).filter fun ob =>
              (ob.map Prod.fst).contains p.1).length <
              (o1 :: o2 :: rest2).length := by
            apply List.length_filter_lt_length_iff_exists.mpr
            refine ⟨o, ho, ?_⟩
            rw [(contains_eq_false_iff_not_mem (o.map Prod.fst) p.1).mpr
              hnotmem]
            simp
          have hreq : p.2.required = false := by
            rw [hs]
            subst hfk
            exact beq_eq_false_iff_ne.mpr (Nat.ne_of_lt hlt)
          simp [checkField, hl, hreq]
        | some w =>
          have hwmem : w ∈ (o1 :: o2 :: rest2).filterMap
              (fun ob => List.lookup p.1 ob) :=
            List.mem_filterMap.mpr ⟨o, ho, hl⟩
          rw [hfk] at hwmem
          rw [hvals] at hwmem
          have htw : getValueType w = getValueType v := by
            rcases List.mem_cons.mp hwmem with rfl | hw'
            · rfl
            · exact beq_iff_eq.mp ((List.all_eq_true.mp hall) w hw')
          have hty : getValueType w = p.2.type := by
            rw [hs, htw]
          simp [checkField, hl, hty]

/-- C1 is refuted by the code: `[1, {a:1}]` infers a template from its lone
object, but the array does not validate clean against that template — entry
0 is not an object, so `isValid` is `false`. -/
theorem detect_validate_roundtrip_counterexample :
    detectTemplate (.arr [.num 1, .obj [("a", .num 1)]]) =
      some ⟨[("a", ⟨"number", true⟩)], 1⟩ ∧
    (validateAgainstTemplate (.arr [.num 1, .obj [("a", .num 1)]])
        ⟨[("a", ⟨"number", true⟩)], 1⟩).isValid = false := by
  constructor
  · rfl
  · rfl

/-- C1 (amended). The inferred template validates its own source array clean
provided every element of the array is an object and no key of any element
was dropped from the template (and the array is JavaScript-well-formed):
then `validateAgainstTemplate(arr, t).isValid` is `true`.  Without these
provisos the claim fails: a non-object element is itself a violation, and a
key dropped for type conflicts resurfaces as an unexpected-field warning. -/
theorem detect_validate_roundtrip (l : List JsonValue) (t : Template)
    (hwf : arrayWF l = true) (hobj : l.all isObject = true)
    (hdet : detectTemplate (.arr l) = some t)
    (hcov : l.all (entryKeysCovered (t.fields.map Prod.fst)) = true) :
    (validateAgainstTemplate (.arr l) t).isValid = true := by
  have hnil : validateEntries t.fields 0 l = [] := by
    apply validateEntries_eq_nil_of
    intro e he i
    have hobj_e : isObject e = true := (List.all_eq_true.mp hobj) e he
    cases e with
    | obj o =>
      have ho : o ∈ objectsOf l := mem_objectsOf l o he
      have hfield : fieldViolations i o t.fields = [] := by
        apply List.flatMap_eq_nil_iff.mpr
        intro p hp
        exact checkField_nil_of_detect l t hwf hdet p hp o ho i
      have hcov_o : ∀ k ∈ o.map Prod.fst, k ∈ t.fields.map Prod.fst := by
        have hc := (List.all_eq_true.mp hcov) (.obj o) he
        simp only [entryKeysCovered] at hc
        intro k hk
        exact (contains_eq_true_iff_mem (t.fields.map Prod.fst) k).mp
          ((List.all_eq_true.mp hc) k hk)
      have hunex := unexpectedViolations_eq_nil i o t.fields hcov_o
      show fieldViolations i o t.fields ++ unexpectedViolations i o t.fields
        = []
      rw [hfield, hunex, List.append_nil]
    | str s => simp [isObject] at hobj_e
    | num n => simp [isObject] at hobj_e
    | bool b => simp [isObject] at hobj_e
    | null => simp [isObject] at hobj_e
    | arr a => simp [isObject] at hobj_e
  simp [validateAgainstTemplate, hnil]

/-- Witness for the amended C1 on `[{a:1},{a:2}]`: all elements are objects,
no key is dropped, and the inferred template validates the array clean. -/
theorem detect_validate_roundtrip_witness :
    (validateAgainstTemplate (.arr [.obj [("a", .num 1)], .obj [("a", .num 2)]])
        ⟨[("a", ⟨"number", true⟩)], 2⟩).isValid = true :=
  detect_validate_roundtrip [.obj [("a", .num 1)], .obj [("a", .num 2)]]
    ⟨[("a", ⟨"number", true⟩)], 2⟩ (by decide) (by decide) (by decide)
    (by decide)

/-! ## Grouping violations by entry -/

theorem lookup_append {α β : Type} [BEq α] (m m' : List (α × β)) (i : α) :
    List.lookup i (m ++ m') =
      match List.lookup i m with
      | some v => some v
      | none => List.lookup i m' := by
  induction m with
  | nil => simp [List.lookup]
  | cons p rest ih =>
    obtain ⟨a, b⟩ := p
    rcases hbeq : i == a with _ | _ <;>
      simp [List.lookup_cons, hbeq, ih]

theorem lookup_cons_head {α β : Type} [BEq α] [LawfulBEq α] (a : α) (b : β)
    (t : List (α × β)) : List.lookup a ((a, b) :: t) = some b := by
  simp [List.lookup_cons]

theorem lookup_cons_skip {α β : Type} [BEq α] (i a : α) (b : β)
    (t : List (α × β)) (h : (i == a) = false) :
    List.lookup i ((a, b) :: t) = List.lookup i t := by
  simp [List.lookup_cons, h]

theorem lookup_update (m : List (Nat × List Violation)) (k : Nat)
    (x : List Violation) (i : Nat) :
    List.lookup i (m.map fun p => if p.1 == k then (k, x) else p) =
      if i = k then ((List.lookup k m).map fun _ => x)
      else List.lookup i m := by
  induction m with
  | nil => by_cases hik : i = k <;> simp [List.lookup, hik]
  | cons p rest ih =>
    obtain ⟨a, b⟩ := p
    rw [List.map_cons]
    dsimp only
    by_cases hak : a = k
    · subst hak
      rw [if_pos (beq_self_eq_true a)]
      by_cases hik : i = a
      · subst hik
        rw [lookup_cons_head, lookup_cons_head, if_pos rfl]
        rfl
      · have h1 : (i == a) = false := beq_eq_false_iff_ne.mpr hik
        rw [lookup_cons_skip i a x _ h1, ih, if_neg hik, if_neg hik,
          lookup_cons_skip i a b rest h1]
    · have h1 : (a == k) = false := beq_eq_false_iff_ne.mpr hak
      rw [if_neg (by rw [h1]; exact Bool.false_ne_true)]
      by_cases hia : i = a
      · subst hia
        have hik : i ≠ k := fun he => hak he
        rw [lookup_cons_head, if_neg hik, lookup_cons_head]
      · have h2 : (i == a) = false := beq_eq_false_iff_ne.mpr hia
        rw [lookup_cons_skip i a b _ h2, lookup_cons_skip i a b rest h2, ih]
        by_cases hik : i = k
        · subst hik
          have h3 : (i == a) = false := h2
          rw [if_pos rfl, if_pos rfl, lookup_cons_skip i a b rest h3]
        · rw [if_neg hik, if_neg hik]

theorem lookup_mapSet (m : List (Nat × List Violation)) (k : Nat)
    (x : List Violation) (i : Nat) :
    List.lookup i (mapSet m k x) = if i = k then some x
      else List.lookup i m := by
  unfold mapSet
  by_cases hc : (m.map Prod.fst).contains k = true
  · rw [if_pos hc, lookup_update]
    by_cases hik : i = k
    · subst hik
      obtain ⟨v, hv⟩ := lookup_isSome_of_mem_keys i m
        ((contains_eq_true_iff_mem (m.map Prod.fst) i).mp hc)
      rw [hv]
      simp
    · simp [hik]
  · rw [if_neg hc, lookup_append]
    have hk : k ∉ m.map Prod.fst := by
      intro hmem
      exact hc ((contains_eq_true_iff_mem (m.map Prod.fst) k).mpr hmem)
    by_cases hik : i = k
    · subst hik
      rw [(lookup_eq_none_iff_keys i m).mpr hk]
      simp [List.lookup]
    · have h2 : (i == k) = false := beq_eq_false_iff_ne.mpr hik
      cases hl : List.lookup i m with
      | none =>
        rw [if_neg hik]
        simp [List.lookup, h2]
      | some v =>
        rw [if_neg hik]

theorem getViolationsByEntry_loop (vs : List Violation) :
    ∀ (m : List (Nat × List Violation)) (pre : Nat → List Violation),
      (∀ j, List.lookup j m =
        if pre j = [] then none else some (pre j)) →
      ∀ i, List.lookup i (vs.foldl
          (fun m v =>
            mapSet m v.index (((List.lookup v.index m).getD []) ++ [v])) m) =
        (if pre i ++ vs.filter (fun v => v.index == i) = [] then none
         else some (pre i ++ vs.filter (fun v => v.index == i))) := by
  induction vs with
  | nil =>
    intro m pre H i
    simpa using H i
  | cons v vs ih =>
    intro m pre H i
    have hgetD : (List.lookup v.index m).getD [] = pre v.index := by
      rw [H v.index]
      by_cases hp : pre v.index = [] <;> simp [hp]
    have H' : ∀ j, List.lookup j
        (mapSet m v.index (((List.lookup v.index m).getD []) ++ [v])) =
        if (if v.index = j then pre j ++ [v] else pre j) = [] then none
        else some (if v.index = j then pre j ++ [v] else pre j) := by
      intro j
      rw [lookup_mapSet, hgetD]
      by_cases hj : j = v.index
      · subst hj
        simp
      · have hj' : ¬(v.index = j) := fun he => hj he.symm
        simp only [if_neg hj, if_neg hj']
        exact H j
    have hstep := ih
      (mapSet m v.index (((List.lookup v.index m).getD []) ++ [v]))
      (fun j => if v.index = j then pre j ++ [v] else pre j) H' i
    show List.lookup i (vs.foldl _ _) = _
    rw [hstep, List.filter_cons]
    by_cases hvi : v.index = i
    · have hb : (v.index == i) = true := beq_iff_eq.mpr hvi
      simp only [hb, if_pos hvi, if_pos rfl]
      rw [List.append_assoc]
      simp
    · have hb : (v.index == i) = false := beq_eq_false_iff_ne.mpr hvi
      simp only [hb, if_neg hvi]
      simp

/-- C10. `getViolationsByEntry` groups a result's violations by entry index:
the map has an entry for `i` exactly when some violation has index `i`, and
the list stored at `i` is, in order, exactly the violations whose index is
`i`. -/
theorem getViolationsByEntry_spec (r : ValidationResult) (i : Nat) :
    List.lookup i (getViolationsByEntry r) =
      (if r.violations.filter (fun v => v.index == i) = [] then none
       else some (r.violations.filter (fun v => v.index == i))) := by
  have h := getViolationsByEntry_loop r.violations [] (fun _ => [])
    (by intro j; simp [List.lookup]) i
  simpa [getViolationsByEntry] using h

end R2d2
